import Mathlib

/-!
# Verification of the slot-intersection-and-ranking core (`find_best_times`)

Shallow embedding of `src/scheduler.py` (the same function appears verbatim in
`src/api/index.py`).  The Python code works over `TimeSlot` records whose `day`
is one of the five weekday strings and whose `hour` is an `int`; a `UserInput`
holds two lists of slots.  `find_best_times`:

1. returns `[]` on empty input;
2. builds the set of `(day, hour)` pairs of the first user's `available_slots`;
3. intersects, in input order, with each remaining user's pair set, returning
   `[]` as soon as the running set becomes empty;
4. scores each surviving pair by the number of users having at least one
   matching entry in `preferred_slots` (inner loop with a `found_preference`
   flag and `break`);
5. sorts the ranked records by the key `(-score, day_mapping day, hour)`.

Python sets are modelled as duplicate-free lists (membership is all that the
code observes); the final output is uniquely determined because the sort key is
injective on distinct `(day, hour)` pairs.
-/

inductive Day where
  | Monday
  | Tuesday
  | Wednesday
  | Thursday
  | Friday
deriving DecidableEq, Repr

structure TimeSlot where
  day : Day
  hour : Nat
deriving DecidableEq, Repr

structure UserInput where
  available_slots : List TimeSlot
  preferred_slots : List TimeSlot
deriving DecidableEq, Repr

structure RankedSlot where
  day : Day
  hour : Nat
  score : Nat
deriving DecidableEq, Repr

/-- The `day_mapping` dictionary used for sorting: Monday→1 … Friday→5. -/
def day_mapping : Day → Nat
  | .Monday => 1
  | .Tuesday => 2
  | .Wednesday => 3
  | .Thursday => 4
  | .Friday => 5

/-- The set of `(day, hour)` pairs of a list of slots, as built by the Python
loops `for slot in …: s.add((slot.day, slot.hour))` (a set: duplicates
collapse, only membership is observable). -/
def slotPairs (slots : List TimeSlot) : List (Day × Nat) :=
  (slots.map (fun s => (s.day, s.hour))).dedup

/-- The intersection loop over the remaining users, with the code's
short-circuit: after each intersection, if the running set is empty the
function returns `[]` immediately (modelled as `none`). -/
def intersectLoop (common : List (Day × Nat)) : List UserInput → Option (List (Day × Nat))
  | [] => some common
  | user :: rest =>
    if (common.filter (fun p => decide (p ∈ slotPairs user.available_slots))).isEmpty then
      none
    else
      intersectLoop (common.filter (fun p => decide (p ∈ slotPairs user.available_slots))) rest

/-- The inner scoring loop for one user: scan `preferred_slots` for an entry
with matching day and hour (the `found_preference` flag with `break`). -/
def prefersSlot (user : UserInput) (day : Day) (hour : Nat) : Bool :=
  user.preferred_slots.any (fun pref => pref.day == day && pref.hour == hour)

/-- The score of a candidate pair: the number of users (over the full original
input) whose `preferred_slots` contains a matching entry; each user adds at
most 1 (`current_score += 1` guarded by the flag). -/
def slotScore (users_data : List UserInput) (day : Day) (hour : Nat) : Nat :=
  users_data.countP (fun user => prefersSlot user day hour)

/-- Building `ranked_slots`: one `{'day':…, 'hour':…, 'score':…}` record per
surviving candidate pair. -/
def rankSlots (users_data : List UserInput) (common : List (Day × Nat)) : List RankedSlot :=
  common.map (fun p => { day := p.1, hour := p.2, score := slotScore users_data p.1 p.2 })

/-- `get_sorting_priorities`: the composite sort key
`(slot['score'] * -1, day_mapping[slot['day']], slot['hour'])`. -/
def get_sorting_priorities (slot : RankedSlot) : Int × Nat × Nat :=
  (-(slot.score : Int), day_mapping slot.day, slot.hour)

/-- Lexicographic `≤` on the sort key, the order `sorted` uses on key tuples. -/
def keyLE (a b : RankedSlot) : Bool :=
  let ka := get_sorting_priorities a
  let kb := get_sorting_priorities b
  decide (ka.1 < kb.1) ||
    (decide (ka.1 = kb.1) &&
      (decide (ka.2.1 < kb.2.1) ||
        (decide (ka.2.1 = kb.2.1) && decide (ka.2.2 ≤ kb.2.2))))

/-- `find_best_times(users_data)` from `src/scheduler.py`.  Python's `sorted`
is a stable sort by `get_sorting_priorities`; it is modelled by a stable sort
with respect to the lexicographic key order `keyLE` (the choice of stable sort
is immaterial: the key is injective on the duplicate-free candidate pairs, so
the sorted result is unique). -/
def find_best_times (users_data : List UserInput) : List RankedSlot :=
  match users_data with
  | [] => []
  | first_user :: remaining_users =>
    match intersectLoop (slotPairs first_user.available_slots) remaining_users with
    | none => []
    | some common_slots =>
      List.insertionSort (fun a b => keyLE a b = true) (rankSlots users_data common_slots)

/-- The `(day, hour)` pairs appearing in the output, in output order. -/
def outPairs (users_data : List UserInput) : List (Day × Nat) :=
  (find_best_times users_data).map (fun r => (r.day, r.hour))

/-- Modelled from the spec: the variant of `find_best_times` that never
short-circuits and always processes all participants, folding the intersection
over every remaining user (spec §4.1 step 3 without step 4's early return). -/
def find_best_times_noShortCircuit (users_data : List UserInput) : List RankedSlot :=
  match users_data with
  | [] => []
  | first_user :: remaining_users =>
    List.insertionSort (fun a b => keyLE a b = true) (rankSlots users_data
      (remaining_users.foldl
        (fun common user => common.filter (fun p => decide (p ∈ slotPairs user.available_slots)))
        (slotPairs first_user.available_slots)))

/-- Spec-side score: the number of participants whose `preferred_slots`
contains the exact `(day, hour)` pair, as a membership count (so a participant
counts at most once however often the pair repeats in their list). -/
def specScore (users_data : List UserInput) (day : Day) (hour : Nat) : Nat :=
  users_data.countP (fun user =>
    decide ((day, hour) ∈ user.preferred_slots.map (fun p => (p.day, p.hour))))

/-! ## Helper lemmas -/

theorem mem_slotPairs {slots : List TimeSlot} {p : Day × Nat} :
    p ∈ slotPairs slots ↔ p ∈ slots.map (fun s => (s.day, s.hour)) := by
  simp [slotPairs]

theorem nodup_slotPairs (slots : List TimeSlot) : (slotPairs slots).Nodup :=
  List.nodup_dedup _

theorem intersectLoop_some_mem {init : List (Day × Nat)} {rest : List UserInput}
    {c : List (Day × Nat)} (h : intersectLoop init rest = some c) (p : Day × Nat) :
    p ∈ c ↔ p ∈ init ∧ ∀ u ∈ rest, p ∈ slotPairs u.available_slots := by
  induction rest generalizing init with
  | nil =>
    simp only [intersectLoop, Option.some.injEq] at h
    subst h
    simp
  | cons u rest ih =>
    simp only [intersectLoop] at h
    split at h
    · exact absurd h (by simp)
    · rw [ih h]
      simp only [List.mem_filter, decide_eq_true_eq, List.forall_mem_cons]
      tauto

theorem intersectLoop_none {init : List (Day × Nat)} {rest : List UserInput}
    (h : intersectLoop init rest = none) (p : Day × Nat) :
    ¬ (p ∈ init ∧ ∀ u ∈ rest, p ∈ slotPairs u.available_slots) := by
  induction rest generalizing init with
  | nil =>
    simp only [intersectLoop] at h
    exact Option.noConfusion h
  | cons u rest ih =>
    simp only [intersectLoop] at h
    split at h
    · rename_i hemp
      rw [List.isEmpty_iff] at hemp
      rintro ⟨hp, hall⟩
      have hmem : p ∈ init.filter (fun q => decide (q ∈ slotPairs u.available_slots)) :=
        List.mem_filter.2 ⟨hp, by simpa using hall u (List.mem_cons_self u rest)⟩
      rw [hemp] at hmem
      simp at hmem
    · rintro ⟨hp, hall⟩
      refine ih h ⟨List.mem_filter.2 ⟨hp, by simpa using hall u (List.mem_cons_self u rest)⟩, ?_⟩
      intro u' hu'
      exact hall u' (List.mem_cons_of_mem u hu')

theorem intersectLoop_nodup {init : List (Day × Nat)} {rest : List UserInput}
    {c : List (Day × Nat)} (hn : init.Nodup) (h : intersectLoop init rest = some c) :
    c.Nodup := by
  induction rest generalizing init with
  | nil =>
    simp only [intersectLoop, Option.some.injEq] at h
    subst h
    exact hn
  | cons u rest ih =>
    simp only [intersectLoop] at h
    split at h
    · exact absurd h (by simp)
    · exact ih (hn.filter _) h

theorem pairs_rankSlots (users_data : List UserInput) (common : List (Day × Nat)) :
    (rankSlots users_data common).map (fun r => (r.day, r.hour)) = common := by
  simp [rankSlots, List.map_map, Function.comp_def]

theorem find_best_times_cons (first : UserInput) (rest : List UserInput) :
    find_best_times (first :: rest) =
      match intersectLoop (slotPairs first.available_slots) rest with
      | none => []
      | some common_slots =>
        List.insertionSort (fun a b => keyLE a b = true)
          (rankSlots (first :: rest) common_slots) := rfl

theorem find_best_times_noShortCircuit_cons (first : UserInput) (rest : List UserInput) :
    find_best_times_noShortCircuit (first :: rest) =
      List.insertionSort (fun a b => keyLE a b = true) (rankSlots (first :: rest)
        (rest.foldl
          (fun common user =>
            common.filter (fun p => decide (p ∈ slotPairs user.available_slots)))
          (slotPairs first.available_slots))) := rfl

theorem mem_outPairs_iff {users_data : List UserInput} (hne : users_data ≠ [])
    (p : Day × Nat) :
    p ∈ outPairs users_data ↔ ∀ u ∈ users_data, p ∈ slotPairs u.available_slots := by
  match users_data with
  | [] => exact absurd rfl hne
  | first :: rest =>
    unfold outPairs
    rw [find_best_times_cons]
    cases h : intersectLoop (slotPairs first.available_slots) rest with
    | none =>
      show p ∈ ([] : List RankedSlot).map (fun r => (r.day, r.hour)) ↔ _
      simp only [List.map_nil, List.not_mem_nil, false_iff, List.forall_mem_cons, not_and]
      intro h1 h2
      exact intersectLoop_none h p ⟨h1, h2⟩
    | some c =>
      show p ∈ (List.insertionSort (fun a b => keyLE a b = true)
        (rankSlots (first :: rest) c)).map (fun r => (r.day, r.hour)) ↔ _
      have hperm : List.Perm
          ((List.insertionSort (fun a b => keyLE a b = true)
            (rankSlots (first :: rest) c)).map (fun r => (r.day, r.hour)))
          ((rankSlots (first :: rest) c).map (fun r => (r.day, r.hour))) :=
        (List.perm_insertionSort _ _).map _
      rw [hperm.mem_iff, pairs_rankSlots, intersectLoop_some_mem h p, List.forall_mem_cons]

theorem keyLE_trans (a b c : RankedSlot) (hab : keyLE a b) (hbc : keyLE b c) : keyLE a c := by
  simp only [keyLE, get_sorting_priorities, Bool.or_eq_true, Bool.and_eq_true,
    decide_eq_true_eq] at hab hbc ⊢
  omega

theorem keyLE_total (a b : RankedSlot) : keyLE a b || keyLE b a := by
  simp only [keyLE, get_sorting_priorities, Bool.or_eq_true, Bool.and_eq_true,
    decide_eq_true_eq]
  omega

theorem find_best_times_pairwise (users_data : List UserInput) :
    (find_best_times users_data).Pairwise (fun a b => keyLE a b = true) := by
  match users_data with
  | [] => exact List.Pairwise.nil
  | first :: rest =>
    rw [find_best_times_cons]
    cases h : intersectLoop (slotPairs first.available_slots) rest with
    | none => exact List.Pairwise.nil
    | some c =>
      haveI : IsTrans RankedSlot (fun a b => keyLE a b = true) :=
        ⟨fun a b c hab hbc => keyLE_trans a b c hab hbc⟩
      haveI : IsTotal RankedSlot (fun a b => keyLE a b = true) :=
        ⟨fun a b => by simpa using keyLE_total a b⟩
      exact List.sorted_insertionSort _ _

theorem score_eq_slotScore {users_data : List UserInput} {r : RankedSlot}
    (hr : r ∈ find_best_times users_data) :
    r.score = slotScore users_data r.day r.hour := by
  match users_data with
  | [] => exact absurd hr (by simp [find_best_times])
  | first :: rest =>
    rw [find_best_times_cons] at hr
    revert hr
    cases h : intersectLoop (slotPairs first.available_slots) rest with
    | none => intro hr; exact absurd hr (by simp)
    | some c =>
      intro hr
      rw [List.mem_insertionSort] at hr
      obtain ⟨p, _, hp⟩ := List.mem_map.1 hr
      subst hp
      rfl

theorem slotScore_eq_specScore (users_data : List UserInput) (day : Day) (hour : Nat) :
    slotScore users_data day hour = specScore users_data day hour := by
  unfold slotScore specScore
  apply List.countP_congr
  intro u _
  simp only [prefersSlot, List.any_eq_true, Bool.and_eq_true, beq_iff_eq,
    decide_eq_true_eq, List.mem_map, Prod.mk.injEq]

/-- Claim C9: no two entries in the output share both day and hour — the
`(day, hour)` pairs of the output entries are pairwise distinct, even when a
participant's `available_slots` list contains duplicate slots. -/
theorem C9_output_pairs_distinct (users_data : List UserInput) :
    (outPairs users_data).Nodup := by
  match users_data with
  | [] => exact List.Pairwise.nil
  | first :: rest =>
    unfold outPairs
    rw [find_best_times_cons]
    cases h : intersectLoop (slotPairs first.available_slots) rest with
    | none => exact List.Pairwise.nil
    | some c =>
      have hperm : List.Perm
          ((List.insertionSort (fun a b => keyLE a b = true)
            (rankSlots (first :: rest) c)).map (fun r => (r.day, r.hour)))
          ((rankSlots (first :: rest) c).map (fun r => (r.day, r.hour))) :=
        (List.perm_insertionSort _ _).map _
      rw [hperm.nodup_iff, pairs_rankSlots]
      exact intersectLoop_nodup (nodup_slotPairs _) h

theorem foldl_inter_nil_acc (rest : List UserInput) :
    rest.foldl (fun common user =>
      common.filter (fun p => decide (p ∈ slotPairs user.available_slots))) [] = [] := by
  induction rest with
  | nil => rfl
  | cons u rest ih => simpa using ih

theorem intersectLoop_some_foldl {init : List (Day × Nat)} {rest : List UserInput}
    {c : List (Day × Nat)} (h : intersectLoop init rest = some c) :
    rest.foldl (fun common user =>
      common.filter (fun p => decide (p ∈ slotPairs user.available_slots))) init = c := by
  induction rest generalizing init with
  | nil =>
    simp only [intersectLoop, Option.some.injEq] at h
    simpa using h
  | cons u rest ih =>
    simp only [intersectLoop] at h
    split at h
    · exact absurd h (by simp)
    · simpa using ih h

theorem intersectLoop_none_foldl {init : List (Day × Nat)} {rest : List UserInput}
    (h : intersectLoop init rest = none) :
    rest.foldl (fun common user =>
      common.filter (fun p => decide (p ∈ slotPairs user.available_slots))) init = [] := by
  induction rest generalizing init with
  | nil =>
    simp only [intersectLoop] at h
    exact Option.noConfusion h
  | cons u rest ih =>
    simp only [intersectLoop] at h
    split at h
    · rename_i hemp
      rw [List.isEmpty_iff] at hemp
      simp only [List.foldl_cons]
      rw [hemp]
      exact foldl_inter_nil_acc rest
    · simpa using ih h

/-! ## Claims -/

/-- Claim C1: for every input sequence of participant schedules, a `(day, hour)`
pair appears in the output of `find_best_times` iff it lies in every
participant's `available_slots` — the output pairs are exactly the mathematical
intersection of the participants' available-slot sets (stated for nonempty
inputs, over which the intersection is formed). -/
theorem C1_intersection_correctness (users_data : List UserInput)
    (hne : users_data ≠ []) (p : Day × Nat) :
    p ∈ outPairs users_data ↔ ∀ u ∈ users_data, p ∈ slotPairs u.available_slots :=
  mem_outPairs_iff hne p

theorem C1_intersection_correctness_witness :
    ((Day.Monday, 9) ∈ outPairs [(⟨[⟨Day.Monday, 9⟩], []⟩ : UserInput)] ↔
      ∀ u ∈ [(⟨[⟨Day.Monday, 9⟩], []⟩ : UserInput)],
        (Day.Monday, 9) ∈ slotPairs u.available_slots) :=
  C1_intersection_correctness _ (by decide) _

/-- Claim C2: the output of `find_best_times` is sorted ascending by the
composite key `(-score, day rank with Monday=1 … Friday=5, hour)`: descending
score, ties broken by earliest weekday, remaining ties by earliest hour; no
ordering among entries with fully equal keys is asserted (the relation below
holds with equality allowed in every component). -/
theorem C2_sort_order (users_data : List UserInput) :
    (find_best_times users_data).Pairwise (fun a b =>
      b.score < a.score ∨ (a.score = b.score ∧
        (day_mapping a.day < day_mapping b.day ∨
          (day_mapping a.day = day_mapping b.day ∧ a.hour ≤ b.hour)))) := by
  refine (find_best_times_pairwise users_data).imp ?_
  intro a b hab
  simp only [keyLE, get_sorting_priorities, Bool.or_eq_true, Bool.and_eq_true,
    decide_eq_true_eq] at hab
  omega

/-- Claim C3: every output entry's score equals the number of participants of
the full original input whose `preferred_slots` contains that exact
`(day, hour)` pair, each participant counting at most once however often the
pair repeats in their preference list (`specScore` is a membership count). -/
theorem C3_score_counts_preferring_participants (users_data : List UserInput)
    (r : RankedSlot) (hr : r ∈ find_best_times users_data) :
    r.score = specScore users_data r.day r.hour :=
  (score_eq_slotScore hr).trans (slotScore_eq_specScore users_data r.day r.hour)

theorem C3_score_counts_preferring_participants_witness :
    (⟨Day.Monday, 9, 2⟩ : RankedSlot).score =
      specScore [(⟨[⟨Day.Monday, 9⟩, ⟨Day.Monday, 10⟩], [⟨Day.Monday, 9⟩]⟩ : UserInput),
        ⟨[⟨Day.Monday, 9⟩], [⟨Day.Monday, 9⟩]⟩] Day.Monday 9 :=
  C3_score_counts_preferring_participants _ _ (by decide)

/-- Claim C4: for a single-participant input `[p]`, the output's `(day, hour)`
pairs are exactly the pairs of `p`'s `available_slots` (duplicates collapsed),
and each output entry is scored 1 if its pair occurs in `p`'s
`preferred_slots` and 0 otherwise. -/
theorem C4_single_participant (p : UserInput) :
    (∀ d h, (d, h) ∈ outPairs [p] ↔ (d, h) ∈ slotPairs p.available_slots) ∧
      ∀ r ∈ find_best_times [p],
        r.score = if (r.day, r.hour) ∈ p.preferred_slots.map (fun s => (s.day, s.hour))
          then 1 else 0 := by
  constructor
  · intro d h
    rw [mem_outPairs_iff (by simp) (d, h)]
    simp
  · intro r hr
    rw [score_eq_slotScore hr, slotScore_eq_specScore]
    unfold specScore
    simp [List.countP_cons]

theorem C4_single_participant_witness :
    ((Day.Tuesday, 10) ∈ outPairs [(⟨[⟨Day.Tuesday, 10⟩], []⟩ : UserInput)] ↔
      (Day.Tuesday, 10) ∈ slotPairs [(⟨Day.Tuesday, 10⟩ : TimeSlot)]) ∧
    (⟨Day.Tuesday, 10, 0⟩ : RankedSlot).score =
      (if ((Day.Tuesday, 10) : Day × Nat) ∈
          ([] : List TimeSlot).map (fun s => (s.day, s.hour)) then 1 else 0) :=
  ⟨(C4_single_participant ⟨[⟨Day.Tuesday, 10⟩], []⟩).1 Day.Tuesday 10,
   (C4_single_participant ⟨[⟨Day.Tuesday, 10⟩], []⟩).2 _ (by decide)⟩

/-- Claim C5: `find_best_times`, with its early return when the running
candidate set becomes empty, produces exactly the same output as the variant
that never short-circuits and always processes all participants; the
short-circuit is a pure optimization. -/
theorem C5_short_circuit_equivalence (users_data : List UserInput) :
    find_best_times users_data = find_best_times_noShortCircuit users_data := by
  match users_data with
  | [] => rfl
  | first :: rest =>
    rw [find_best_times_cons]
    cases h : intersectLoop (slotPairs first.available_slots) rest with
    | none =>
      show ([] : List RankedSlot) = find_best_times_noShortCircuit (first :: rest)
      rw [find_best_times_noShortCircuit_cons, intersectLoop_none_foldl h]
      rfl
    | some c =>
      show List.insertionSort (fun a b => keyLE a b = true) (rankSlots (first :: rest) c) =
        find_best_times_noShortCircuit (first :: rest)
      rw [find_best_times_noShortCircuit_cons, intersectLoop_some_foldl h]

/-- Claim C6: permuting the input sequence of participants never changes the
set of candidate `(day, hour)` pairs in the output of `find_best_times`. -/
theorem C6_permutation_invariance (users_data users_data' : List UserInput)
    (hperm : users_data.Perm users_data') (p : Day × Nat) :
    (p ∈ outPairs users_data ↔ p ∈ outPairs users_data') := by
  cases users_data with
  | nil =>
    have h' : users_data' = [] := hperm.symm.eq_nil
    subst h'
    exact Iff.rfl
  | cons f r =>
    have hne : (f :: r : List UserInput) ≠ [] := by simp
    have hne' : users_data' ≠ [] := by
      intro h
      subst h
      exact absurd hperm.eq_nil (by simp)
    rw [mem_outPairs_iff hne p, mem_outPairs_iff hne' p]
    constructor
    · intro hall u hu
      exact hall u (hperm.mem_iff.2 hu)
    · intro hall u hu
      exact hall u (hperm.mem_iff.1 hu)

theorem C6_permutation_invariance_witness :
    ((Day.Monday, 9) ∈ outPairs
        [(⟨[⟨Day.Monday, 9⟩], []⟩ : UserInput), ⟨[⟨Day.Monday, 9⟩, ⟨Day.Monday, 10⟩], []⟩] ↔
      (Day.Monday, 9) ∈ outPairs
        [(⟨[⟨Day.Monday, 9⟩, ⟨Day.Monday, 10⟩], []⟩ : UserInput), ⟨[⟨Day.Monday, 9⟩], []⟩]) :=
  C6_permutation_invariance _ _ (by decide) _

/-- Claim C7: whenever two participants at distinct positions have disjoint
available-slot sets, `find_best_times` returns the empty sequence. -/
theorem C7_disjoint_participants_empty (users_data : List UserInput) (i j : Nat)
    (hi : i < users_data.length) (hj : j < users_data.length) (hij : i ≠ j)
    (hdisj : ∀ p : Day × Nat, p ∈ slotPairs (users_data.get ⟨i, hi⟩).available_slots →
      p ∉ slotPairs (users_data.get ⟨j, hj⟩).available_slots) :
    find_best_times users_data = [] := by
  by_contra hne
  obtain ⟨r, hr⟩ := List.exists_mem_of_ne_nil _ hne
  have hmem : (r.day, r.hour) ∈ outPairs users_data := List.mem_map_of_mem _ hr
  have husers : users_data ≠ [] := by
    intro h
    subst h
    exact absurd hi (by simp)
  rw [mem_outPairs_iff husers] at hmem
  exact hdisj _ (hmem _ (List.get_mem _ _ _)) (hmem _ (List.get_mem _ _ _))

theorem C7_disjoint_participants_empty_witness :
    find_best_times [(⟨[⟨Day.Monday, 9⟩], []⟩ : UserInput), ⟨[⟨Day.Friday, 9⟩], []⟩] = [] :=
  C7_disjoint_participants_empty _ 0 1 (by decide) (by decide) (by decide) (by decide)

/-- Claim C8: `find_best_times` never signals an error: it is a total function
returning `[]` on the empty input, and returning `[]` (not a failure) on any
input containing a participant with empty `available_slots`. -/
theorem C8_degenerate_inputs :
    find_best_times ([] : List UserInput) = [] ∧
      ∀ (users_data : List UserInput) (u : UserInput),
        u ∈ users_data → u.available_slots = [] → find_best_times users_data = [] := by
  refine ⟨rfl, ?_⟩
  intro users_data u hu hav
  by_contra hne
  obtain ⟨r, hr⟩ := List.exists_mem_of_ne_nil _ hne
  have hmem : (r.day, r.hour) ∈ outPairs users_data := List.mem_map_of_mem _ hr
  have husers : users_data ≠ [] := List.ne_nil_of_mem hu
  rw [mem_outPairs_iff husers] at hmem
  have hcontra := hmem u hu
  rw [hav] at hcontra
  simp [slotPairs] at hcontra

theorem C8_degenerate_inputs_witness :
    find_best_times [(⟨[], [⟨Day.Monday, 9⟩]⟩ : UserInput)] = [] :=
  C8_degenerate_inputs.2 _ ⟨[], [⟨Day.Monday, 9⟩]⟩ (by decide) rfl
